import Mathlib

/-!
Shallow embedding of the scan engine in `pages/api/scan.js`
(Compliance-Monitor): the numeric-parameter parser `num`, the rate-limit
classifier `isRateLimit`, the retrying invoker `withRetry`, the failover
invoker `withClients`, the range chunker `getLogsChunked`, and the API
`handler`.

Modelling conventions:
- JS numbers reaching `num` are either finite (modelled as a `some` value)
  or NaN/±Infinity (modelled as `none`); `Number.isFinite` is exactly the
  `some` test.
- Machine integers / BigInt are modelled as `Int` (block heights fit far
  below any overflow boundary, and JS BigInt is arbitrary precision).
- Asynchrony is sequenced away: each backend primitive becomes a pure
  oracle `client index → attempt index → Except String α`, the possible
  outcome of the i-th invocation on a given client.  Thrown JS errors are
  `Except.error msg` carrying the error text.
- The wall-clock deadline (`Date.now() - startedAt > hardStopAtMs`) is
  external nondeterminism; it is modelled by a budget: the number of times
  the check will still come out false.  A monotone clock means the check,
  once true, stays true, which is exactly what a decreasing budget models.
- Sleeps do not affect control flow; the retrying invoker records the
  delays it would have slept as a ghost trace, as does each layer record
  the calls it issued, so that theorems can speak about the calls made.
-/

/-- Parser `num` from scan.js line 25: `Number(v)` is finite → use it, else the
default.  The argument is the parse result: `some q` for a finite double
(modelled as a rational), `none` for NaN/Infinity. -/
def num (v : Option ℚ) (d : ℚ) : ℚ :=
  match v with
  | some n => n
  | none => d

/-- Integer restriction of `num` used by the handler model: every numeric
query parameter the claims exercise is an integer (`BigInt(x)` throws on
non-integers, so integer values are the live cases). -/
def numZ (v : Option ℤ) (d : ℤ) : ℤ :=
  match v with
  | some n => n
  | none => d

/-- Substring test on character lists, modelling JS `String.includes`. -/
def hasSub (needle : List Char) : List Char → Bool
  | [] => needle.isEmpty
  | c :: t => needle.isPrefixOf (c :: t) || hasSub needle t

/-- Classifier `isRateLimit` from scan.js lines 29-32: lowercase the error text and
look for one of the three throttling markers.  (`String.toLower` is
`Char.toLower` mapped over the characters; the map is applied on the
character list directly.) -/
def isRateLimit (msg : String) : Bool :=
  let m := msg.toList.map Char.toLower
  hasSub "too many".toList m || hasSub "rate limit".toList m ||
    hasSub "exhausted".toList m

/-- The `{ maxRetries, retryDelayMs, rateDelayMs }` options object taken by
`withRetry`. -/
structure RetryPolicy where
  maxRetries : ℤ
  retryDelayMs : ℤ
  rateDelayMs : ℤ
deriving DecidableEq

/-- The delay slept after a failed attempt (scan.js line 44). -/
def retryDelay (pol : RetryPolicy) (e : String) : ℤ :=
  if isRateLimit e then pol.rateDelayMs else pol.retryDelayMs

instance exceptDecidableEq {ε α : Type} [DecidableEq ε] [DecidableEq α] :
    DecidableEq (Except ε α) := fun x y =>
  match x, y with
  | .ok a, .ok b =>
    if h : a = b then .isTrue (by rw [h])
    else .isFalse (by intro hh; cases hh; exact h rfl)
  | .ok _, .error _ => .isFalse (by intro hh; cases hh)
  | .error _, .ok _ => .isFalse (by intro hh; cases hh)
  | .error e, .error f =>
    if h : e = f then .isTrue (by rw [h])
    else .isFalse (by intro hh; cases hh; exact h rfl)

/-- Observable outcome of one `withRetry` call: the value returned or error
thrown, how many times the wrapped operation was invoked, and the sleeps
performed between consecutive attempts (ghost trace). -/
structure RetryTrace (A : Type) where
  result : Except String A
  calls : ℕ
  sleeps : List ℤ
deriving DecidableEq

/-- The `for (i = 0; i <= maxRetries; i++)` loop body of `withRetry`
(scan.js lines 39-46): attempt `i`, with `left` further attempts allowed. -/
def withRetryGo (f : ℕ → Except String A) (pol : RetryPolicy) :
    ℕ → ℕ → RetryTrace A
  | i, 0 =>
    match f i with
    | .ok a => ⟨.ok a, 1, []⟩
    | .error e => ⟨.error e, 1, []⟩
  | i, left + 1 =>
    match f i with
    | .ok a => ⟨.ok a, 1, []⟩
    | .error e =>
      let t := withRetryGo f pol (i + 1) left
      ⟨t.result, t.calls + 1, retryDelay pol e :: t.sleeps⟩

/-- Function `withRetry` from scan.js lines 37-48, over the oracle `f` giving the
outcome of each attempt.  A negative `maxRetries` makes the JS loop body
never run, so `throw last` throws `undefined`. -/
def withRetryT (f : ℕ → Except String A) (pol : RetryPolicy) : RetryTrace A :=
  if pol.maxRetries < 0 then ⟨.error "undefined", 0, []⟩
  else withRetryGo f pol 0 pol.maxRetries.toNat

/-- Observable outcome of one `withClients` call: the result, plus for each
endpoint consulted (in pool order) the number of invocations made against
it (ghost trace). -/
structure ClientsTrace (A : Type) where
  result : Except String A
  perClient : List (ℕ × ℕ)
deriving DecidableEq

/-- The `for (i = 0; i < clients.length; i++)` loop of `withClients`
(scan.js lines 49-56) over the remaining client indices.  Only the error
of the last failing client survives in `last`, so recursion propagates the
tail's error. -/
def withClientsGo (q : ℕ → ℕ → Except String A) (pol : RetryPolicy) :
    List ℕ → ClientsTrace A
  | [] => ⟨.error "undefined", []⟩
  | [i] =>
    let t := withRetryT (q i) pol
    ⟨t.result, [(i, t.calls)]⟩
  | i :: j :: rest =>
    let t := withRetryT (q i) pol
    match t.result with
    | .ok a => ⟨.ok a, [(i, t.calls)]⟩
    | .error _ =>
      let r := withClientsGo q pol (j :: rest)
      ⟨r.result, (i, t.calls) :: r.perClient⟩

/-- Function `withClients` from scan.js lines 49-56: try each of the `n` clients in
pool order, each through `withRetryT`. -/
def withClientsT (q : ℕ → ℕ → Except String A) (n : ℕ) (pol : RetryPolicy) :
    ClientsTrace A :=
  withClientsGo q pol (List.range n)

/-- One decoded `Transfer` log as consumed by the handler: block hash,
transaction hash, the decoded `from`/`to` addresses and raw integer value. -/
structure LogRec where
  blockHash : String
  transactionHash : String
  fromAddr : String
  toAddr : String
  value : ℤ
deriving DecidableEq

/-- The backend world one scan call runs against: the client pool size, the
three primitive query oracles (keyed by client index and attempt index),
the deadline budgets (how many times each deadline check still comes out
false), the outcome of the final deadline check at response time, and the
`Date.now()` value used for unresolved timestamps. -/
structure ChainEnv where
  numClients : ℕ
  tipQ : ℕ → ℕ → Except String ℤ
  logsQ : ℤ → ℤ → ℕ → ℕ → Except String (List LogRec)
  blockQ : String → ℕ → ℕ → Except String ℤ
  chunkBudget : ℕ
  tsBudget : ℕ
  overAtEnd : Bool
  nowMs : ℤ

/-- Upper bound of the chunk starting at `cursor` (scan.js lines 70-71):
`min(cursor + step - 1, e)`. -/
def chunkUpper (cursor e step : ℤ) : ℤ :=
  min (cursor + step - 1) e

/-- Cursor advance of one loop iteration (scan.js line 80):
`chunkTo + 1`. -/
def chunkNext (cursor e step : ℤ) : ℤ :=
  chunkUpper cursor e step + 1

/-- Pure range/cursor dynamics of the `while (cursor <= end)` loop of
`getLogsChunked`, fuel `k` being the deadline budget (the number of times
the `Date.now()` check still comes out false): the list of sub-ranges
issued and the final cursor value.  Exhausted fuel with `cursor ≤ e` is
the deadline break; the loop completed its window exactly when the final
cursor exceeds `e`. -/
def chunkRun : ℕ → ℤ → ℤ → ℤ → List (ℤ × ℤ) × ℤ
  | 0, cursor, _, _ => ([], cursor)
  | k + 1, cursor, e, step =>
    if cursor ≤ e then
      let ct := chunkUpper cursor e step
      let r := chunkRun k (ct + 1) e step
      ((cursor, ct) :: r.1, r.2)
    else ([], cursor)

/-- The retry options hard-coded at the `getLogs` call site inside
`getLogsChunked` (scan.js line 76). -/
def chunkPolicy : RetryPolicy := ⟨3, 1200, 11000⟩

/-- Ghost record of one chunk fetch: the sub-range issued and the failover
trace of the `withClients` call that served it. -/
structure ChunkFetch where
  chunkFrom : ℤ
  chunkTo : ℤ
  perClient : List (ℕ × ℕ)
deriving DecidableEq

/-- The `while (cursor <= end)` loop of `getLogsChunked` (scan.js lines
65-82) with its backend calls: accumulated logs, final cursor, and the
trace of chunk fetches issued.  A failed fetch propagates as a thrown
error. -/
def chunkLoop (env : ChainEnv) (e step : ℤ) :
    ℕ → ℤ → Except String (List LogRec × ℤ × List ChunkFetch)
  | 0, cursor => .ok ([], cursor, [])
  | k + 1, cursor =>
    if cursor ≤ e then
      let ct := chunkUpper cursor e step
      let t := withClientsT (fun c i => env.logsQ cursor ct c i)
        env.numClients chunkPolicy
      match t.result with
      | .error msg => .error msg
      | .ok part =>
        match chunkLoop env e step k (ct + 1) with
        | .error msg => .error msg
        | .ok (rest, fin, tr) =>
          .ok (part ++ rest, fin, ⟨cursor, ct, t.perClient⟩ :: tr)
    else .ok ([], cursor, [])

/-- Result of `getLogsChunked`: the logs, the residual cursor (`null` when
the window was completed), and the ghost fetch trace. -/
structure ChunkResult where
  logs : List LogRec
  nextFromBlock : Option ℤ
  trace : List ChunkFetch
deriving DecidableEq

/-- Function `getLogsChunked` from scan.js lines 58-87: normalize the range, run the
chunk loop under the deadline budget, and report the residual cursor. -/
def getLogsChunked (env : ChainEnv) (fromBlock toBlock step : ℤ) :
    Except String ChunkResult :=
  let s := if fromBlock < toBlock then fromBlock else toBlock
  let e := if toBlock > fromBlock then toBlock else fromBlock
  match chunkLoop env e step env.chunkBudget s with
  | .error msg => .error msg
  | .ok (logs, fin, tr) =>
    .ok ⟨logs, if fin ≤ e then some fin else none, tr⟩

/-- The query parameters of one scan call (scan.js lines 92-103).  Numeric
parameters carry the result of `Number(...)`: `some n` for a finite
integer value, `none` for an absent parameter or a NaN parse. -/
structure Params where
  window : Option ℤ := none
  target : Option ℤ := none
  chunk : Option ℤ := none
  cdelay : Option ℤ := none
  bdelay : Option ℤ := none
  retries : Option ℤ := none
  rdelay : Option ℤ := none
  ratedelay : Option ℤ := none
  maxms : Option ℤ := none
  cursorTo : Option ℤ := none

/-- One caller-facing row (scan.js lines 176-183).  `amount` is the
decimal-adjusted value (`formatUnits(value, 6)`); exact rational division
stands in for the double rounding, which no claim touches. -/
structure Row where
  time : ℤ
  hash : String
  fromAddr : String
  toAddr : String
  amount : ℚ
deriving DecidableEq

/-- Sort order of the comparator `(a, b) => b.time - a.time`: `a` may come
before `b` when its timestamp is at least `b`'s (descending time). -/
def rowDesc (a b : Row) : Prop := b.time ≤ a.time

instance : DecidableRel rowDesc := fun a b =>
  inferInstanceAs (Decidable (b.time ≤ a.time))

instance : IsTotal Row rowDesc := ⟨fun a b => le_total b.time a.time⟩

instance : IsTrans Row rowDesc := ⟨fun _ _ _ h1 h2 => le_trans h2 h1⟩

/-- The JSON body the handler responds with: a 200 payload
`{ rows, scannedBlocks, nextCursorTo, info: { partial } }`, or an error
status with `{ error }`. -/
inductive Resp where
  | ok (rows : List Row) (scannedBlocks : ℤ) (nextCursorTo : Option ℤ)
      (partialFlag : Bool)
  | err (status : ℕ) (msg : String)
deriving DecidableEq

/-- Start boundary of the backward window (scan.js lines 133-135):
`toBlock > BigInt(W - 1) ? toBlock - BigInt(W - 1) : 0n`. -/
def fromBlockOf (w toBlock : ℤ) : ℤ :=
  if toBlock > w - 1 then toBlock - (w - 1) else 0

/-- The cursor expression of scan.js lines 155 and 191-193:
`nextFromBlock ? nextFromBlock.toString() : (fromBlock > 0n ?
(fromBlock - 1n).toString() : null)`.  JS truthiness makes the BigInt `0n`
fall through to the second branch. -/
def jsCursor (nfb : Option ℤ) (fromBlock : ℤ) : Option ℤ :=
  let fallback := if fromBlock > 0 then some (fromBlock - 1) else none
  match nfb with
  | some c => if c = 0 then fallback else some c
  | none => fallback

/-- JS `Array.prototype.slice(0, t)` on a row list: for `t ≥ 0` keep the first
`min t length` entries, for `t < 0` keep the first `max (length + t) 0`. -/
def jsSlice (l : List Row) (t : ℤ) : List Row :=
  if 0 ≤ t then l.take t.toNat else l.take ((l.length : ℤ) + t).toNat

/-- Iteration order of `new Set(xs)`: the distinct elements in order of
first insertion (scan.js line 162). -/
def dedupGo (seen : List String) : List String → List String
  | [] => []
  | h :: t => if h ∈ seen then dedupGo seen t else h :: dedupGo (h :: seen) t

/-- Distinct block hashes in first-occurrence order. -/
def dedupKeepFirst (l : List String) : List String := dedupGo [] l

/-- The `for (const bh of blockSet)` timestamp-resolution loop (scan.js
lines 164-173): deadline check first, then a failover-protected
`getBlock`, recording `Number(block.timestamp) * 1000` per hash. -/
def tsLoop (env : ChainEnv) (pol : RetryPolicy) :
    ℕ → List String → Except String (List (String × ℤ))
  | _, [] => .ok []
  | 0, _ :: _ => .ok []
  | k + 1, h :: rest =>
    match (withClientsT (env.blockQ h) env.numClients pol).result with
    | .error msg => .error msg
    | .ok ts =>
      match tsLoop env pol k rest with
      | .error msg => .error msg
      | .ok m => .ok ((h, ts * 1000) :: m)

/-- Row shaping (scan.js lines 176-183) before sorting: timestamp from the
resolved map, defaulting to `Date.now()`. -/
def rowsOf (logs : List LogRec) (bmap : List (String × ℤ)) (nowMs : ℤ) :
    List Row :=
  logs.map (fun l =>
    ⟨(bmap.lookup l.blockHash).getD nowMs, l.transactionHash, l.fromAddr,
      l.toAddr, (l.value : ℚ) / 1000000⟩)

/-- The retry options the handler builds from the `retries`, `rdelay` and
`ratedelay` query parameters (scan.js lines 110-112), passed to the
tip-height query (line 129) and the timestamp queries (line 169). -/
def paramsPolicy (p : Params) : RetryPolicy :=
  ⟨numZ p.retries 3, numZ p.rdelay 1200, numZ p.ratedelay 11000⟩

/-- The API route `handler` from scan.js lines 89-205, as a function of the
query parameters and the backend world.  The `catch` wrapper maps any
propagated error to a 500 response. -/
def handler (p : Params) (env : ChainEnv) : Resp :=
  let w := numZ p.window 1200
  let t := numZ p.target 50
  let c := numZ p.chunk 300
  let pol : RetryPolicy := paramsPolicy p
  if env.numClients = 0 then
    .err 400 "No RPC configured. In Vercel set ANKR_BASE_RPC (and optional FALLBACK_BASE_RPC)."
  else
    match (match p.cursorTo with
           | some cur => Except.ok cur
           | none => (withClientsT env.tipQ env.numClients pol).result) with
    | .error msg => .err 500 msg
    | .ok toBlock =>
      let fromBlock := fromBlockOf w toBlock
      match getLogsChunked env fromBlock toBlock c with
      | .error msg => .err 500 msg
      | .ok cr =>
        if cr.logs.isEmpty then
          .ok [] (toBlock - fromBlock + 1) (jsCursor cr.nextFromBlock fromBlock)
            true
        else
          match tsLoop env pol env.tsBudget
              (dedupKeepFirst (cr.logs.map (·.blockHash))) with
          | .error msg => .err 500 msg
          | .ok bmap =>
            .ok (jsSlice (List.insertionSort rowDesc
                  (rowsOf cr.logs bmap env.nowMs)) t)
              (toBlock - fromBlock + 1)
              (jsCursor cr.nextFromBlock fromBlock) env.overAtEnd

/-- Predicate: `l` is a gapless, overlap-free decomposition of the block range
`[c, e]` into inclusive sub-ranges in ascending order, each of size at
most `step`. -/
def ChunkChain (step : ℤ) : ℤ → ℤ → List (ℤ × ℤ) → Prop
  | c, e, [] => e < c
  | c, e, (a, b) :: rest =>
    a = c ∧ a ≤ b ∧ b ≤ e ∧ b - a + 1 ≤ step ∧ ChunkChain step (b + 1) e rest

/-! Concrete backend environments, query parameters and expected
values used by the witness and counterexample theorems below. -/

def envW : ChainEnv where
  numClients := 1
  tipQ := fun _ _ => .ok 9
  logsQ := fun _ _ _ _ => .ok []
  blockQ := fun _ _ _ => .ok 5
  chunkBudget := 10
  tsBudget := 10
  overAtEnd := false
  nowMs := 777

def crW : ChunkResult :=
  ⟨[], none, [⟨0, 3, [(0, 1)]⟩, ⟨4, 7, [(0, 1)]⟩, ⟨8, 9, [(0, 1)]⟩]⟩

def fFailW : ℕ → Except String ℤ :=
  fun i => .error (if i = 0 then "Too many requests" else "boom")

def esFailW : ℕ → String := fun i => if i = 0 then "Too many requests" else "boom"

def fOkW : ℕ → Except String ℤ :=
  fun i => if i = 0 then .error "x rate limit y" else .ok 42

def esOkW : ℕ → String := fun _ => "x rate limit y"

def qaW : ℕ → ℕ → Except String ℤ :=
  fun c i => .error (if c = 0 then (if i = 0 then "e00" else "e01")
    else (if i = 0 then "rate limit" else "e11"))

def esaW : ℕ → ℕ → String :=
  fun c i => if c = 0 then (if i = 0 then "e00" else "e01")
    else (if i = 0 then "rate limit" else "e11")

def qbW : ℕ → ℕ → Except String ℤ :=
  fun c i => if c = 0 then .error (if i = 0 then "e00" else "e01") else .ok 42

def envC6 : ChainEnv where
  numClients := 2
  tipQ := qaW
  logsQ := fun _ _ _ _ => .ok []
  blockQ := fun _ _ _ => .ok 5
  chunkBudget := 10
  tsBudget := 10
  overAtEnd := false
  nowMs := 0

def pC6 : Params := { retries := some 1 }

def pC2 : Params := { window := some 10, chunk := some 5, cursorTo := some 9 }

def envC2 : ChainEnv where
  numClients := 1
  tipQ := fun _ _ => .ok 9
  logsQ := fun _ _ _ _ => .ok []
  blockQ := fun _ _ _ => .ok 5
  chunkBudget := 1
  tsBudget := 10
  overAtEnd := true
  nowMs := 777

def pC3 : Params := { window := some 10, chunk := some 5, cursorTo := some 9 }

def envC3 : ChainEnv where
  numClients := 1
  tipQ := fun _ _ => .ok 9
  logsQ := fun _ _ _ _ => .ok []
  blockQ := fun _ _ _ => .ok 5
  chunkBudget := 30
  tsBudget := 10
  overAtEnd := false
  nowMs := 777

def pL : Params := { window := some 3, chunk := some 5, cursorTo := some 2 }

def L1 : LogRec := ⟨"bh", "t1", "a1", "a2", 0⟩

def L2 : LogRec := ⟨"bh", "t2", "a3", "a4", 0⟩

def envL : ChainEnv where
  numClients := 1
  tipQ := fun _ _ => .ok 2
  logsQ := fun f _ _ _ => if f = 0 then .ok [L1, L2] else .ok []
  blockQ := fun _ _ _ => .ok 5
  chunkBudget := 30
  tsBudget := 10
  overAtEnd := false
  nowMs := 777

def crL : ChunkResult := ⟨[L1, L2], none, [⟨0, 2, [(0, 1)]⟩]⟩

def bmapL : List (String × ℤ) := [("bh", 5000)]

def pC7 : Params :=
  { window := some 3, chunk := some 5, cursorTo := some 2, target := some (-1) }

def pC9 : Params :=
  { window := some 1, chunk := some 300, retries := some 0, cursorTo := some 0 }

def envC9 : ChainEnv where
  numClients := 1
  tipQ := fun _ _ => .ok 0
  logsQ := fun _ _ _ i => if i < 3 then .error "boom" else .ok []
  blockQ := fun _ _ _ => .ok 5
  chunkBudget := 5
  tsBudget := 5
  overAtEnd := false
  nowMs := 0

theorem chunkRun_gt (st : ℤ) (k : ℕ) (c e : ℤ) (h : e < c) :
    chunkRun k c e st = ([], c) := by
  cases k with
  | zero => rfl
  | succ k' => simp [chunkRun, not_le.mpr h]

theorem chunkRun_fin_ge (st : ℤ) (hst : 1 ≤ st) :
    ∀ (k : ℕ) (c e : ℤ), c ≤ (chunkRun k c e st).2 := by
  intro k
  induction k with
  | zero => intro c e; simp [chunkRun]
  | succ k ih =>
    intro c e
    by_cases hc : c ≤ e
    · have h1 : c ≤ chunkUpper c e st + 1 := by
        simp only [chunkUpper]
        rcases le_total (c + st - 1) e with h | h
        · omega
        · omega
      have := ih (chunkUpper c e st + 1) e
      simp only [chunkRun, if_pos hc]
      omega
    · simp [chunkRun, hc]

theorem chunkRun_complete (st : ℤ) (hst : 1 ≤ st) :
    ∀ (k : ℕ) (c e : ℤ), (e + 1 - c).toNat ≤ k → e < (chunkRun k c e st).2 := by
  intro k
  induction k with
  | zero => intro c e h; simp only [chunkRun]; omega
  | succ k ih =>
    intro c e h
    by_cases hc : c ≤ e
    · simp only [chunkRun, if_pos hc]
      apply ih
      simp only [chunkUpper]
      rcases le_total (c + st - 1) e with h2 | h2 <;> simp [min_def] <;> omega
    · simp only [chunkRun, if_neg hc]; omega

theorem chunkRun_chain (st : ℤ) (hst : 1 ≤ st) :
    ∀ (k : ℕ) (c e : ℤ), e < (chunkRun k c e st).2 →
      ChunkChain st c e (chunkRun k c e st).1 := by
  intro k
  induction k with
  | zero =>
    intro c e h
    simp only [chunkRun] at *
    exact h
  | succ k ih =>
    intro c e h
    by_cases hc : c ≤ e
    · simp only [chunkRun, if_pos hc] at h ⊢
      refine ⟨rfl, ?_, ?_, ?_, ?_⟩
      · simp only [chunkUpper]; rcases le_total (c + st - 1) e with h2 | h2 <;>
          simp [min_def] <;> omega
      · simp only [chunkUpper]; exact min_le_right _ _
      · simp only [chunkUpper]
        have := min_le_left (c + st - 1) e
        omega
      · exact ih _ e h
    · simp only [chunkRun, if_neg hc]
      simp only [ChunkChain]
      omega

theorem chunkChain_mem_bounds (st e : ℤ) :
    ∀ (l : List (ℤ × ℤ)) (c : ℤ), ChunkChain st c e l →
      ∀ p ∈ l, c ≤ p.1 ∧ p.1 ≤ p.2 ∧ p.2 ≤ e ∧ p.2 - p.1 + 1 ≤ st := by
  intro l
  induction l with
  | nil => intro c _ p hp; cases hp
  | cons a rest ih =>
    rintro c ⟨ha, hab, hbe, hsz, hrest⟩ p hp
    rcases List.mem_cons.mp hp with hp | hp
    · subst hp; exact ⟨le_of_eq ha.symm, hab, hbe, hsz⟩
    · have := ih (a.2 + 1) hrest p hp
      omega

theorem chunkChain_union (st e : ℤ) :
    ∀ (l : List (ℤ × ℤ)) (c : ℤ), ChunkChain st c e l →
      ∀ x, (c ≤ x ∧ x ≤ e) ↔ ∃ p ∈ l, p.1 ≤ x ∧ x ≤ p.2 := by
  intro l
  induction l with
  | nil =>
    intro c hch x
    simp only [ChunkChain] at hch
    simp only [List.not_mem_nil]
    constructor
    · intro h; omega
    · rintro ⟨p, hp, _⟩; cases hp
  | cons a rest ih =>
    rintro c ⟨ha, hab, hbe, hsz, hrest⟩ x
    have hiu := ih (a.2 + 1) hrest x
    constructor
    · intro h
      by_cases hx : x ≤ a.2
      · exact ⟨a, List.mem_cons_self a rest, by omega, hx⟩
      · obtain ⟨p, hp, hpx⟩ := hiu.mp (by omega)
        exact ⟨p, List.mem_cons_of_mem a hp, hpx⟩
    · rintro ⟨p, hp, hpx⟩
      rcases List.mem_cons.mp hp with hp | hp
      · subst hp; omega
      · have := chunkChain_mem_bounds st e rest (a.2 + 1) hrest p hp
        omega

theorem chunkChain_adjacent (st e : ℤ) :
    ∀ (l : List (ℤ × ℤ)) (c : ℤ), ChunkChain st c e l →
      l.Chain' (fun p q => q.1 = p.2 + 1) := by
  intro l
  induction l with
  | nil => intro c _; exact List.chain'_nil
  | cons a rest ih =>
    rintro c ⟨_, _, _, _, hrest⟩
    cases rest with
    | nil => exact List.chain'_singleton a
    | cons b rest' =>
      rw [List.chain'_cons]
      exact ⟨hrest.1, ih (a.2 + 1) hrest⟩

theorem chunkChain_starts_ascending (st e : ℤ) :
    ∀ (l : List (ℤ × ℤ)) (c : ℤ), ChunkChain st c e l →
      l.Pairwise (fun p q => p.1 < q.1) := by
  intro l
  induction l with
  | nil => intro c _; exact List.Pairwise.nil
  | cons a rest ih =>
    rintro c ⟨ha, hab, hbe, hsz, hrest⟩
    refine List.Pairwise.cons ?_ (ih (a.2 + 1) hrest)
    intro q hq
    have := chunkChain_mem_bounds st e rest (a.2 + 1) hrest q hq
    omega

theorem chunkRun_single (st : ℤ) (hst : 1 ≤ st) (k : ℕ) (c e : ℤ)
    (hce : c ≤ e) (hbig : e - c + 1 ≤ st) (hdone : e < (chunkRun k c e st).2) :
    (chunkRun k c e st).1 = [(c, e)] := by
  cases k with
  | zero => simp only [chunkRun] at hdone; omega
  | succ k' =>
    have hct : chunkUpper c e st = e := by
      simp only [chunkUpper, min_def]; split <;> omega
    simp only [chunkRun, if_pos hce, hct, chunkRun_gt st k' (e + 1) e (by omega)]

theorem ceil_div_eq_one (n st : ℕ) (h1 : 1 ≤ n) (h2 : n ≤ st) :
    (n + st - 1) / st = 1 := by
  have hpos : 0 < st := by omega
  have hle : 1 ≤ (n + st - 1) / st := by
    rw [Nat.le_div_iff_mul_le hpos]; omega
  have hlt : (n + st - 1) / st < 2 := by
    rw [Nat.div_lt_iff_lt_mul hpos]; omega
  omega

theorem ceil_div_sub (n st : ℕ) (h1 : 1 ≤ st) (h2 : st ≤ n) :
    ((n - st) + st - 1) / st = (n + st - 1) / st - 1 := by
  have e1 : (n - st) + st - 1 = n - 1 := by omega
  have e2 : n + st - 1 = (n - 1) + st := by omega
  rw [e1, e2, Nat.add_div_right _ (show 0 < st by omega), Nat.add_sub_cancel]

theorem ceil_div_pos (n st : ℕ) (h1 : 1 ≤ n) (h2 : 1 ≤ st) :
    1 ≤ (n + st - 1) / st := by
  rw [Nat.le_div_iff_mul_le (by omega)]; omega

theorem chunkRun_ceil (st : ℤ) (hst : 1 ≤ st) :
    ∀ (k : ℕ) (c e : ℤ), c ≤ e →
      ((e + 1 - c).toNat + st.toNat - 1) / st.toNat ≤ k →
      e < (chunkRun k c e st).2 ∧
        (chunkRun k c e st).1.length =
          ((e + 1 - c).toNat + st.toNat - 1) / st.toNat := by
  intro k
  induction k with
  | zero =>
    intro c e hce hbound
    exfalso
    have := ceil_div_pos (e + 1 - c).toNat st.toNat (by omega) (by omega)
    omega
  | succ k ih =>
    intro c e hce hbound
    by_cases hsmall : e ≤ c + st - 1
    · have hct : chunkUpper c e st = e := by
        simp only [chunkUpper, min_def]; split <;> omega
      have hone : ((e + 1 - c).toNat + st.toNat - 1) / st.toNat = 1 :=
        ceil_div_eq_one _ _ (by omega) (by omega)
      simp only [chunkRun, if_pos hce, hct,
        chunkRun_gt st k (e + 1) e (by omega), hone]
      constructor
      · omega
      · rfl
    · have hct : chunkUpper c e st = c + st - 1 := by
        simp only [chunkUpper, min_def]; split <;> omega
      have hsub : ((e + 1 - (c + st)).toNat + st.toNat - 1) / st.toNat =
          ((e + 1 - c).toNat + st.toNat - 1) / st.toNat - 1 := by
        have e3 : (e + 1 - (c + st)).toNat = (e + 1 - c).toNat - st.toNat := by
          omega
        rw [e3]
        exact ceil_div_sub _ _ (by omega) (by omega)
      have hpos := ceil_div_pos (e + 1 - c).toNat st.toNat (by omega) (by omega)
      have hrec := ih (c + st) e (by omega) (by omega)
      simp only [chunkRun, if_pos hce, hct]
      have hct1 : c + st - 1 + 1 = c + st := by omega
      rw [hct1]
      refine ⟨hrec.1, ?_⟩
      simp only [List.length_cons, hrec.2]
      omega

/-- Claim C8: for every resolved end boundary `end ≥ 0` and window size, the
start boundary computed by the handler equals `max 0 (end - window + 1)`,
and the window has exactly `window` blocks unless clamped at height 0. -/
theorem orchestrator_start_boundary (w tb : ℤ) (h : 0 ≤ tb) :
    fromBlockOf w tb = max 0 (tb - w + 1) ∧
    (0 ≤ tb - w + 1 → tb - fromBlockOf w tb + 1 = w) := by
  unfold fromBlockOf
  constructor
  · rcases le_total (tb - w + 1) 0 with h2 | h2 <;> split <;> omega
  · intro h2; split <;> omega

theorem orchestrator_start_boundary_witness :
    (0 : ℤ) ≤ 100 ∧
    (fromBlockOf 30 100 = max 0 (100 - 30 + 1) ∧
      (0 ≤ (100 : ℤ) - 30 + 1 → (100 : ℤ) - fromBlockOf 30 100 + 1 = 30)) :=
  ⟨by decide, orchestrator_start_boundary 30 100 (by decide)⟩

/-- Claim C10: with `chunkSize ≥ 1` the chunk loop completes within
`⌈windowSize / chunkSize⌉` iterations; with `chunkSize = 0` the cursor
update leaves the cursor unchanged, so only the deadline check can end the
loop; and `num` accepts every finite number, including 0 and negatives. -/
theorem chunker_termination (s e st c' e' : ℤ) (k : ℕ) (q dq : ℚ) (z dz : ℤ) :
    (s ≤ e → 1 ≤ st → ((e + 1 - s).toNat + st.toNat - 1) / st.toNat ≤ k →
      e < (chunkRun k s e st).2 ∧
        (chunkRun k s e st).1.length =
          ((e + 1 - s).toNat + st.toNat - 1) / st.toNat) ∧
    (c' ≤ e' → chunkNext c' e' 0 = c' ∧ ∀ k', (chunkRun k' c' e' 0).2 = c') ∧
    num (some q) dq = q ∧ numZ (some z) dz = z := by
  refine ⟨fun h1 h2 h3 => chunkRun_ceil st h2 k s e h1 h3, fun hce => ⟨?_, ?_⟩,
    rfl, rfl⟩
  · simp only [chunkNext, chunkUpper, min_def]; split <;> omega
  · intro k'
    induction k' with
    | zero => rfl
    | succ k'' ih =>
      have hup : chunkUpper c' e' 0 + 1 = c' := by
        simp only [chunkUpper, min_def]; split <;> omega
      simp only [chunkRun, if_pos hce, hup, ih]

theorem chunker_termination_witness :
    ((0 : ℤ) ≤ 9 → (1 : ℤ) ≤ 4 →
      (((9 : ℤ) + 1 - 0).toNat + (4 : ℤ).toNat - 1) / (4 : ℤ).toNat ≤ 3 →
      (9 : ℤ) < (chunkRun 3 0 9 4).2 ∧
        (chunkRun 3 0 9 4).1.length =
          (((9 : ℤ) + 1 - 0).toNat + (4 : ℤ).toNat - 1) / (4 : ℤ).toNat) ∧
    ((2 : ℤ) ≤ 5 → chunkNext 2 5 0 = 2 ∧ ∀ k', (chunkRun k' 2 5 0).2 = 2) ∧
    num (some (-5)) 7 = -5 ∧ numZ (some 0) 3 = 0 :=
  chunker_termination 0 9 4 2 5 3 (-5) 7 0 3

theorem chunkLoop_run (env : ChainEnv) (e step : ℤ) :
    ∀ (k : ℕ) (c : ℤ) (lg : List LogRec) (fin : ℤ) (tr : List ChunkFetch),
      chunkLoop env e step k c = .ok (lg, fin, tr) →
      tr.map (fun f => (f.chunkFrom, f.chunkTo)) = (chunkRun k c e step).1 ∧
        fin = (chunkRun k c e step).2 := by
  intro k
  induction k with
  | zero =>
    intro c lg fin tr h
    simp only [chunkLoop, Except.ok.injEq, Prod.mk.injEq] at h
    obtain ⟨h1, h2, h3⟩ := h
    subst h2; subst h3
    simp [chunkRun]
  | succ k ih =>
    intro c lg fin tr h
    by_cases hc : c ≤ e
    · simp only [chunkLoop, if_pos hc] at h
      rcases hw : (withClientsT (fun cl i => env.logsQ c (chunkUpper c e step) cl i)
          env.numClients chunkPolicy).result with msg | part
      · rw [hw] at h; cases h
      · rw [hw] at h
        rcases hrec : chunkLoop env e step k (chunkUpper c e step + 1) with msg | trip
        · rw [hrec] at h; cases h
        · obtain ⟨rest, fin', tr'⟩ := trip
          rw [hrec] at h
          simp only [Except.ok.injEq, Prod.mk.injEq] at h
          obtain ⟨h1, h2, h3⟩ := h
          subst h1; subst h2; subst h3
          have := ih (chunkUpper c e step + 1) rest fin' tr' hrec
          simp only [chunkRun, if_pos hc, List.map_cons, this.1, this.2]
          exact ⟨trivial, trivial⟩
    · simp only [chunkLoop, if_neg hc, Except.ok.injEq, Prod.mk.injEq] at h
      obtain ⟨h1, h2, h3⟩ := h
      subst h2; subst h3
      simp [chunkRun_gt step (k + 1) c e (by omega)]

/-- Claim C1: when the deadline never fires (the chunker reports no residual
cursor), the sub-ranges issued by `getLogsChunked` over `[from, to]` with
`from ≤ to` and `chunkSize ≥ 1` partition the window exactly: non-empty,
strictly ascending starts, adjacent with no gaps or overlaps, each of size
at most `chunkSize`, union equal to `[from, to]`, and a single chunk
`[from, to]` whenever `chunkSize ≥ to - from + 1`. -/
theorem getLogsChunked_partitions (env : ChainEnv) (fromBlock toBlock step : ℤ)
    (cr : ChunkResult) (hle : fromBlock ≤ toBlock) (hst : 1 ≤ step)
    (hok : getLogsChunked env fromBlock toBlock step = .ok cr)
    (hdone : cr.nextFromBlock = none) :
    (cr.trace.map (fun f => (f.chunkFrom, f.chunkTo)) ≠ [] ∧
      (cr.trace.map (fun f => (f.chunkFrom, f.chunkTo))).Pairwise
        (fun p q => p.1 < q.1) ∧
      (cr.trace.map (fun f => (f.chunkFrom, f.chunkTo))).Chain'
        (fun p q => q.1 = p.2 + 1) ∧
      (∀ p ∈ cr.trace.map (fun f => (f.chunkFrom, f.chunkTo)),
        p.1 ≤ p.2 ∧ p.2 - p.1 + 1 ≤ step) ∧
      (∀ x, (fromBlock ≤ x ∧ x ≤ toBlock) ↔
        ∃ p ∈ cr.trace.map (fun f => (f.chunkFrom, f.chunkTo)),
          p.1 ≤ x ∧ x ≤ p.2) ∧
      (toBlock - fromBlock + 1 ≤ step →
        cr.trace.map (fun f => (f.chunkFrom, f.chunkTo)) =
          [(fromBlock, toBlock)])) := by
  have hs : (if fromBlock < toBlock then fromBlock else toBlock) = fromBlock := by
    split <;> omega
  have he : (if toBlock > fromBlock then toBlock else fromBlock) = toBlock := by
    split <;> omega
  simp only [getLogsChunked, hs, he] at hok
  rcases hcl : chunkLoop env toBlock step env.chunkBudget fromBlock with msg | trip
  · rw [hcl] at hok; cases hok
  · obtain ⟨lg, fin, tr⟩ := trip
    rw [hcl] at hok
    simp only [Except.ok.injEq] at hok
    subst hok
    simp only at hdone
    have hfin : ¬ (fin ≤ toBlock) := by
      intro hcon
      rw [if_pos hcon] at hdone
      cases hdone
    have hbr := chunkLoop_run env toBlock step env.chunkBudget fromBlock lg fin tr hcl
    have hrun : toBlock < (chunkRun env.chunkBudget fromBlock toBlock step).2 := by
      rw [← hbr.2]; omega
    have hchain := chunkRun_chain step hst env.chunkBudget fromBlock toBlock hrun
    simp only [hbr.1]
    refine ⟨?_, ?_, ?_, ?_, ?_, ?_⟩
    · intro hnil
      rw [hnil] at hchain
      simp only [ChunkChain] at hchain
      omega
    · exact chunkChain_starts_ascending step toBlock _ fromBlock hchain
    · exact chunkChain_adjacent step toBlock _ fromBlock hchain
    · intro p hp
      have := chunkChain_mem_bounds step toBlock _ fromBlock hchain p hp
      omega
    · exact chunkChain_union step toBlock _ fromBlock hchain
    · intro hbig
      exact chunkRun_single step hst env.chunkBudget fromBlock toBlock hle hbig hrun

theorem getLogsChunked_partitions_witness :
    (0 : ℤ) ≤ 9 ∧ (1 : ℤ) ≤ 4 ∧
    getLogsChunked envW 0 9 4 = .ok crW ∧ crW.nextFromBlock = none ∧
    (crW.trace.map (fun f => (f.chunkFrom, f.chunkTo)) ≠ [] ∧
      (crW.trace.map (fun f => (f.chunkFrom, f.chunkTo))).Pairwise
        (fun p q => p.1 < q.1) ∧
      (crW.trace.map (fun f => (f.chunkFrom, f.chunkTo))).Chain'
        (fun p q => q.1 = p.2 + 1) ∧
      (∀ p ∈ crW.trace.map (fun f => (f.chunkFrom, f.chunkTo)),
        p.1 ≤ p.2 ∧ p.2 - p.1 + 1 ≤ 4) ∧
      (∀ x, ((0 : ℤ) ≤ x ∧ x ≤ 9) ↔
        ∃ p ∈ crW.trace.map (fun f => (f.chunkFrom, f.chunkTo)),
          p.1 ≤ x ∧ x ≤ p.2) ∧
      ((9 : ℤ) - 0 + 1 ≤ 4 →
        crW.trace.map (fun f => (f.chunkFrom, f.chunkTo)) = [(0, 9)])) :=
  ⟨by decide, by decide, by decide, by decide,
    getLogsChunked_partitions envW 0 9 4 crW (by decide) (by decide)
      (by decide) (by decide)⟩

theorem withRetryGo_allfail (A : Type) (f : ℕ → Except String A)
    (pol : RetryPolicy) (es : ℕ → String) :
    ∀ (left i : ℕ), (∀ t, t ≤ left → f (i + t) = .error (es (i + t))) →
      withRetryGo f pol i left =
        ⟨.error (es (i + left)), left + 1,
          (List.range left).map (fun t => retryDelay pol (es (i + t)))⟩ := by
  intro left
  induction left with
  | zero =>
    intro i h
    have h0 : f i = .error (es i) := h 0 (Nat.le_refl 0)
    simp [withRetryGo, h0]
  | succ left ih =>
    intro i h
    have h0 : f i = .error (es i) := h 0 (Nat.zero_le _)
    have hshift : ∀ t, t ≤ left → f (i + 1 + t) = .error (es (i + 1 + t)) := by
      intro t ht
      have := h (t + 1) (by omega)
      have harith : i + (t + 1) = i + 1 + t := by omega
      rw [harith] at this
      exact this
    have hrec := ih (i + 1) hshift
    simp only [withRetryGo, h0, hrec]
    have harith2 : i + 1 + left = i + (left + 1) := by omega
    have hmap : (List.range (left + 1)).map
          (fun t => retryDelay pol (es (i + t))) =
        retryDelay pol (es i) ::
          (List.range left).map (fun t => retryDelay pol (es (i + 1 + t))) := by
      rw [List.range_succ_eq_map, List.map_cons, List.map_map]
      refine congrArg₂ _ (by simp) ?_
      apply List.map_congr_left
      intro t _
      simp only [Function.comp_apply, Nat.succ_eq_add_one]
      congr 2
      omega
    rw [harith2, hmap]

theorem withRetryGo_success (A : Type) (f : ℕ → Except String A)
    (pol : RetryPolicy) (es : ℕ → String) (v : A) :
    ∀ (j left i : ℕ), j ≤ left →
      (∀ t, t < j → f (i + t) = .error (es (i + t))) → f (i + j) = .ok v →
      withRetryGo f pol i left =
        ⟨.ok v, j + 1, (List.range j).map (fun t => retryDelay pol (es (i + t)))⟩ := by
  intro j
  induction j with
  | zero =>
    intro left i _ _ hok
    have h0 : f i = .ok v := hok
    cases left <;> simp [withRetryGo, h0]
  | succ j ih =>
    intro left i hle hfail hok
    cases left with
    | zero => omega
    | succ left' =>
      have h0 : f i = .error (es i) := hfail 0 (by omega)
      have hshift : ∀ t, t < j → f (i + 1 + t) = .error (es (i + 1 + t)) := by
        intro t ht
        have := hfail (t + 1) (by omega)
        have harith : i + (t + 1) = i + 1 + t := by omega
        rw [harith] at this
        exact this
      have hok1 : f (i + 1 + j) = .ok v := by
        have harith : i + (j + 1) = i + 1 + j := by omega
        rw [harith] at hok
        exact hok
      have hrec := ih left' (i + 1) (by omega) hshift hok1
      simp only [withRetryGo, h0, hrec]
      have hmap : (List.range (j + 1)).map
            (fun t => retryDelay pol (es (i + t))) =
          retryDelay pol (es i) ::
            (List.range j).map (fun t => retryDelay pol (es (i + 1 + t))) := by
        rw [List.range_succ_eq_map, List.map_cons, List.map_map]
        refine congrArg₂ _ (by simp) ?_
        apply List.map_congr_left
        intro t _
        simp only [Function.comp_apply, Nat.succ_eq_add_one]
        congr 2
        omega
      rw [hmap]

theorem withRetryT_allfail (A : Type) (f : ℕ → Except String A) (N : ℕ)
    (rD rL : ℤ) (es : ℕ → String) (h : ∀ i, i ≤ N → f i = .error (es i)) :
    withRetryT f ⟨(N : ℤ), rD, rL⟩ =
      ⟨.error (es N), N + 1,
        (List.range N).map (fun t => retryDelay ⟨(N : ℤ), rD, rL⟩ (es t))⟩ := by
  have hnn : ¬ ((N : ℤ) < 0) := by omega
  have h' : ∀ t, t ≤ N → f (0 + t) = .error (es (0 + t)) := by
    intro t ht
    simpa using h t ht
  have := withRetryGo_allfail A f ⟨(N : ℤ), rD, rL⟩ es N 0 h'
  simp only [withRetryT, hnn, if_false, Int.toNat_natCast]
  simpa using this

theorem withRetryT_success (A : Type) (f : ℕ → Except String A) (N : ℕ)
    (rD rL : ℤ) (es : ℕ → String) (v : A) (j : ℕ) (hj : j ≤ N)
    (hfail : ∀ t, t < j → f t = .error (es t)) (hok : f j = .ok v) :
    withRetryT f ⟨(N : ℤ), rD, rL⟩ =
      ⟨.ok v, j + 1,
        (List.range j).map (fun t => retryDelay ⟨(N : ℤ), rD, rL⟩ (es t))⟩ := by
  have hnn : ¬ ((N : ℤ) < 0) := by omega
  have hfail' : ∀ t, t < j → f (0 + t) = .error (es (0 + t)) := by
    intro t ht
    simpa using hfail t ht
  have hok' : f (0 + j) = .ok v := by simpa using hok
  have := withRetryGo_success A f ⟨(N : ℤ), rD, rL⟩ es v j N 0 hj hfail' hok'
  simp only [withRetryT, hnn, if_false, Int.toNat_natCast]
  simpa using this

/-- Claim C5: with `maxRetries = N`, a permanently failing operation is invoked
exactly `N + 1` times, each inter-attempt sleep is the rate-limit delay or
the generic delay according to the error classification, and the last
error propagates unchanged; an operation succeeding at attempt `j` is
invoked exactly `j + 1` times and its result is returned. -/
theorem withRetry_spec (A : Type) (N : ℕ) (rD rL : ℤ)
    (f : ℕ → Except String A) (es : ℕ → String) (v : A) (j : ℕ) :
    ((∀ i, i ≤ N → f i = .error (es i)) →
      withRetryT f ⟨(N : ℤ), rD, rL⟩ =
        ⟨.error (es N), N + 1,
          (List.range N).map (fun t => retryDelay ⟨(N : ℤ), rD, rL⟩ (es t))⟩) ∧
    (j ≤ N → (∀ t, t < j → f t = .error (es t)) → f j = .ok v →
      withRetryT f ⟨(N : ℤ), rD, rL⟩ =
        ⟨.ok v, j + 1,
          (List.range j).map (fun t => retryDelay ⟨(N : ℤ), rD, rL⟩ (es t))⟩) :=
  ⟨fun h => withRetryT_allfail A f N rD rL es h,
    fun hj hfail hok => withRetryT_success A f N rD rL es v j hj hfail hok⟩

theorem withRetry_spec_witness :
    (withRetryT fFailW ⟨(1 : ℕ), 7, 9⟩ =
      ⟨.error (esFailW 1), 1 + 1,
        (List.range 1).map (fun t => retryDelay ⟨(1 : ℕ), 7, 9⟩ (esFailW t))⟩) ∧
    (withRetryT fOkW ⟨(1 : ℕ), 7, 9⟩ =
      ⟨.ok 42, 1 + 1,
        (List.range 1).map (fun t => retryDelay ⟨(1 : ℕ), 7, 9⟩ (esOkW t))⟩) :=
  ⟨(withRetry_spec ℤ 1 7 9 fFailW esFailW 42 1).1 (fun i _ => rfl),
    (withRetry_spec ℤ 1 7 9 fOkW esOkW 42 1).2 (by decide)
      (fun t ht => by interval_cases t; rfl) rfl⟩

theorem getLastD_append_singleton (l : List ℕ) (a d : ℕ) :
    (l ++ [a]).getLastD d = a := by
  induction l generalizing d with
  | nil => rfl
  | cons x l ih => rw [List.cons_append, List.getLastD_cons]; exact ih x

theorem getLastD_map_succ_range (m : ℕ) :
    (((List.range m).map Nat.succ).getLastD 0) = m := by
  cases m with
  | zero => rfl
  | succ m' =>
    rw [List.range_succ, List.map_append]
    simpa using getLastD_append_singleton _ _ _

theorem withClientsGo_allfail (A : Type) (q : ℕ → ℕ → Except String A)
    (pol : RetryPolicy) (ee : ℕ → String) :
    ∀ (l : List ℕ) (i : ℕ),
      (∀ c ∈ i :: l, (withRetryT (q c) pol).result = .error (ee c)) →
      withClientsGo q pol (i :: l) =
        ⟨.error (ee (l.getLastD i)),
          (i :: l).map (fun c => (c, (withRetryT (q c) pol).calls))⟩ := by
  intro l
  induction l with
  | nil =>
    intro i h
    have hi := h i (List.mem_cons_self i [])
    simp [withClientsGo, hi]
  | cons j rest ih =>
    intro i h
    have hi := h i (List.mem_cons_self i _)
    have hrec := ih j (fun c hc => h c (List.mem_cons_of_mem i hc))
    simp only [withClientsGo, hi, hrec, List.getLastD_cons, List.map_cons]

theorem withClientsGo_success (A : Type) (q : ℕ → ℕ → Except String A)
    (pol : RetryPolicy) (ee : ℕ → String) (v : A) :
    ∀ (l1 : List ℕ) (j : ℕ) (l2 : List ℕ),
      (∀ c ∈ l1, (withRetryT (q c) pol).result = .error (ee c)) →
      (withRetryT (q j) pol).result = .ok v →
      withClientsGo q pol (l1 ++ j :: l2) =
        ⟨.ok v, (l1 ++ [j]).map (fun c => (c, (withRetryT (q c) pol).calls))⟩ := by
  intro l1
  induction l1 with
  | nil =>
    intro j l2 _ hok
    cases l2 with
    | nil => simp [withClientsGo, hok]
    | cons x l2' => simp [withClientsGo, hok]
  | cons i l1' ih =>
    intro j l2 hfail hok
    have hi := hfail i (List.mem_cons_self i _)
    have hrec := ih j l2 (fun c hc => hfail c (List.mem_cons_of_mem i hc)) hok
    obtain ⟨y, ys, hl⟩ := List.exists_cons_of_ne_nil
      (List.append_ne_nil_of_right_ne_nil l1' (List.cons_ne_nil j l2))
    rw [List.cons_append, hl]
    simp only [withClientsGo, hi]
    rw [← hl, hrec]
    simp [List.cons_append]

theorem withClientsT_allfail (A : Type) (q : ℕ → ℕ → Except String A)
    (N n : ℕ) (rD rL : ℤ) (es : ℕ → ℕ → String) (hn : 0 < n)
    (h : ∀ c, c < n → ∀ i, i ≤ N → q c i = .error (es c i)) :
    withClientsT q n ⟨(N : ℤ), rD, rL⟩ =
      ⟨.error (es (n - 1) N), (List.range n).map (fun c => (c, N + 1))⟩ := by
  obtain ⟨m, rfl⟩ : ∃ m, n = m + 1 := ⟨n - 1, by omega⟩
  have hmem : ∀ c ∈ (0 : ℕ) :: (List.range m).map Nat.succ, c < m + 1 := by
    intro c hc
    rcases List.mem_cons.mp hc with hc | hc
    · omega
    · obtain ⟨t, ht, rfl⟩ := List.mem_map.mp hc
      have := List.mem_range.mp ht
      omega
  have hres : ∀ c ∈ (0 : ℕ) :: (List.range m).map Nat.succ,
      (withRetryT (q c) ⟨(N : ℤ), rD, rL⟩).result = .error (es c N) := by
    intro c hc
    rw [withRetryT_allfail A (q c) N rD rL (es c) (h c (hmem c hc))]
  have hcalls : ∀ c, c < m + 1 →
      (withRetryT (q c) ⟨(N : ℤ), rD, rL⟩).calls = N + 1 := by
    intro c hc
    rw [withRetryT_allfail A (q c) N rD rL (es c) (h c hc)]
  rw [withClientsT, List.range_succ_eq_map,
    withClientsGo_allfail A q ⟨(N : ℤ), rD, rL⟩ (fun c => es c N) _ 0 hres,
    getLastD_map_succ_range]
  have : ((0 : ℕ) :: (List.range m).map Nat.succ) = List.range (m + 1) :=
    (List.range_succ_eq_map m).symm
  rw [this]
  have hsimp : m + 1 - 1 = m := by omega
  rw [hsimp]
  refine congrArg _ ?_
  apply List.map_congr_left
  intro c hc
  rw [hcalls c (List.mem_range.mp hc)]

theorem withClientsT_firstSuccess (A : Type) (q : ℕ → ℕ → Except String A)
    (N n j : ℕ) (rD rL : ℤ) (es : ℕ → ℕ → String) (v : A) (hj : j < n)
    (hfail : ∀ c, c < j → ∀ i, i ≤ N → q c i = .error (es c i))
    (hok : (withRetryT (q j) ⟨(N : ℤ), rD, rL⟩).result = .ok v) :
    withClientsT q n ⟨(N : ℤ), rD, rL⟩ =
      ⟨.ok v, (List.range j).map (fun c => (c, N + 1)) ++
        [(j, (withRetryT (q j) ⟨(N : ℤ), rD, rL⟩).calls)]⟩ := by
  have hsplit : List.range n = List.range j ++ j :: List.range' (j + 1) (n - j - 1) := by
    rw [List.range_eq_range']
    have h1 : n = (n - j - 1 + 1) + j := by omega
    rw [h1, ← List.range'_append_1 0 j (n - j - 1 + 1)]
    simp only [List.range_eq_range', Nat.zero_add]
    have h2 : n - j - 1 + 1 + j - j - 1 = n - j - 1 := by omega
    rw [h2]
    rfl
  have hres : ∀ c ∈ List.range j,
      (withRetryT (q c) ⟨(N : ℤ), rD, rL⟩).result = .error (es c N) := by
    intro c hc
    rw [withRetryT_allfail A (q c) N rD rL (es c) (hfail c (List.mem_range.mp hc))]
  rw [withClientsT, hsplit,
    withClientsGo_success A q ⟨(N : ℤ), rD, rL⟩ (fun c => es c N) v _ j _ hres hok,
    List.map_append]
  refine congrArg _ (congrArg₂ _ ?_ rfl)
  apply List.map_congr_left
  intro c hc
  rw [withRetryT_allfail A (q c) N rD rL (es c) (hfail c (List.mem_range.mp hc))]

/-- Claim C6: `withClients` tries the pool in order, consulting each endpoint for
its full retry budget of `N + 1` invocations before moving on, stops at
the first endpoint whose retrying invocation succeeds, and when every
endpoint's budget is exhausted the last observed error propagates; the
handler then answers such a scan call with an HTTP 500 error response. -/
theorem withClients_failover (A : Type) (N na nb j : ℕ) (rD rL : ℤ)
    (qa qb : ℕ → ℕ → Except String A) (esa esb esc : ℕ → ℕ → String) (v : A)
    (p : Params) (env : ChainEnv) :
    (0 < na → (∀ c, c < na → ∀ i, i ≤ N → qa c i = .error (esa c i)) →
      withClientsT qa na ⟨(N : ℤ), rD, rL⟩ =
        ⟨.error (esa (na - 1) N), (List.range na).map (fun c => (c, N + 1))⟩) ∧
    (j < nb → (∀ c, c < j → ∀ i, i ≤ N → qb c i = .error (esb c i)) →
      (withRetryT (qb j) ⟨(N : ℤ), rD, rL⟩).result = .ok v →
      withClientsT qb nb ⟨(N : ℤ), rD, rL⟩ =
        ⟨.ok v, (List.range j).map (fun c => (c, N + 1)) ++
          [(j, (withRetryT (qb j) ⟨(N : ℤ), rD, rL⟩).calls)]⟩) ∧
    (p.cursorTo = none → 0 < env.numClients →
      paramsPolicy p = ⟨(N : ℤ), rD, rL⟩ →
      (∀ c, c < env.numClients → ∀ i, i ≤ N → env.tipQ c i = .error (esc c i)) →
      handler p env = .err 500 (esc (env.numClients - 1) N)) := by
  refine ⟨fun hn h => withClientsT_allfail A qa N na rD rL esa hn h,
    fun hj hfail hok => withClientsT_firstSuccess A qb N nb j rD rL esb v hj hfail hok,
    fun hcur hn hpol htip => ?_⟩
  have htipres := withClientsT_allfail ℤ env.tipQ N env.numClients rD rL esc hn htip
  simp only [handler, hcur, Nat.pos_iff_ne_zero.mp hn, if_false, hpol, htipres]

theorem withClients_failover_witness :
    (withClientsT qaW 2 ⟨((1 : ℕ) : ℤ), 1200, 11000⟩ =
      ⟨.error (esaW (2 - 1) 1), (List.range 2).map (fun c => (c, 1 + 1))⟩) ∧
    (withClientsT qbW 2 ⟨((1 : ℕ) : ℤ), 1200, 11000⟩ =
      ⟨.ok 42, (List.range 1).map (fun c => (c, 1 + 1)) ++
        [(1, (withRetryT (qbW 1) ⟨((1 : ℕ) : ℤ), 1200, 11000⟩).calls)]⟩) ∧
    (handler pC6 envC6 = .err 500 (esaW (envC6.numClients - 1) 1)) :=
  ⟨(withClients_failover ℤ 1 2 2 1 1200 11000 qaW qbW esaW esaW esaW 42 pC6
      envC6).1 (by decide) (fun c _ i _ => rfl),
    (withClients_failover ℤ 1 2 2 1 1200 11000 qaW qbW esaW esaW esaW 42 pC6
      envC6).2.1 (by decide) (fun c hc i _ => by interval_cases c <;> rfl)
      (by decide),
    (withClients_failover ℤ 1 2 2 1 1200 11000 qaW qbW esaW esaW esaW 42 pC6
      envC6).2.2 rfl (by decide) (by decide) (fun c hc i hi => rfl)⟩

theorem withRetryT_ok0 (A : Type) (f : ℕ → Except String A) (pol : RetryPolicy)
    (a : A) (hpol : 0 ≤ pol.maxRetries) (hf : f 0 = .ok a) :
    withRetryT f pol = ⟨.ok a, 1, []⟩ := by
  have hnn : ¬ (pol.maxRetries < 0) := by omega
  rw [withRetryT, if_neg hnn]
  cases h : pol.maxRetries.toNat with
  | zero => simp [withRetryGo, hf]
  | succ m => simp [withRetryGo, hf]

theorem withClientsT_ok0 (A : Type) (q : ℕ → ℕ → Except String A) (n : ℕ)
    (pol : RetryPolicy) (a : A) (hn : 0 < n) (hpol : 0 ≤ pol.maxRetries)
    (hq : q 0 0 = .ok a) :
    withClientsT q n pol = ⟨.ok a, [(0, 1)]⟩ := by
  obtain ⟨m, rfl⟩ : ∃ m, n = m + 1 := ⟨n - 1, by omega⟩
  rw [withClientsT, List.range_succ_eq_map]
  have ht := withRetryT_ok0 A (q 0) pol a hpol hq
  cases hl : (List.range m).map Nat.succ with
  | nil => simp [withClientsGo, ht]
  | cons y ys => simp [withClientsGo, ht]

theorem chunkLoop_empty (env : ChainEnv) (e step : ℤ) (hn : 0 < env.numClients)
    (hlogs : ∀ a b cl i, env.logsQ a b cl i = .ok ([] : List LogRec)) :
    ∀ (k : ℕ) (c : ℤ), ∃ tr,
      chunkLoop env e step k c = .ok ([], (chunkRun k c e step).2, tr) := by
  intro k
  induction k with
  | zero => intro c; exact ⟨[], rfl⟩
  | succ k ih =>
    intro c
    by_cases hc : c ≤ e
    · obtain ⟨tr', hrec⟩ := ih (chunkUpper c e step + 1)
      have hcl := withClientsT_ok0 (List LogRec)
        (fun cl i => env.logsQ c (chunkUpper c e step) cl i) env.numClients
        chunkPolicy [] hn (by norm_num [chunkPolicy]) (hlogs _ _ 0 0)
      refine ⟨⟨c, chunkUpper c e step,
        (withClientsT (fun cl i => env.logsQ c (chunkUpper c e step) cl i)
          env.numClients chunkPolicy).perClient⟩ :: tr', ?_⟩
      simp only [chunkLoop, if_pos hc, hcl, hrec, chunkRun, List.nil_append]
    · exact ⟨[], by simp [chunkLoop, if_neg hc, chunkRun, hc]⟩

theorem range_normalize_left (fromBlock toBlock : ℤ) (h : fromBlock ≤ toBlock) :
    (if fromBlock < toBlock then fromBlock else toBlock) = fromBlock := by
  split <;> omega

theorem range_normalize_right (fromBlock toBlock : ℤ) (h : fromBlock ≤ toBlock) :
    (if toBlock > fromBlock then toBlock else fromBlock) = toBlock := by
  split <;> omega

theorem getLogsChunked_empty (env : ChainEnv) (fb tb step : ℤ)
    (hle : fb ≤ tb) (hst : 1 ≤ step) (hn : 0 < env.numClients)
    (hlogs : ∀ a b cl i, env.logsQ a b cl i = .ok ([] : List LogRec))
    (hbudget : (tb + 1 - fb).toNat ≤ env.chunkBudget) :
    ∃ tr, getLogsChunked env fb tb step = .ok ⟨[], none, tr⟩ := by
  obtain ⟨tr, hloop⟩ := chunkLoop_empty env tb step hn hlogs env.chunkBudget fb
  have hfin := chunkRun_complete step hst env.chunkBudget fb tb hbudget
  refine ⟨tr, ?_⟩
  rw [getLogsChunked, range_normalize_left fb tb hle, range_normalize_right fb tb hle,
    hloop]
  simp only [Except.ok.injEq, ChunkResult.mk.injEq]
  refine ⟨trivial, ?_, trivial⟩
  rw [if_neg (by omega)]

theorem chunkLoop_trace_perClient (env : ChainEnv) (e step : ℤ) :
    ∀ (k : ℕ) (c : ℤ) (lg : List LogRec) (fin : ℤ) (tr : List ChunkFetch),
      chunkLoop env e step k c = .ok (lg, fin, tr) →
      ∀ f ∈ tr, f.perClient =
        (withClientsT (fun cl i => env.logsQ f.chunkFrom f.chunkTo cl i)
          env.numClients chunkPolicy).perClient := by
  intro k
  induction k with
  | zero =>
    intro c lg fin tr h f hf
    simp only [chunkLoop, Except.ok.injEq, Prod.mk.injEq] at h
    rw [← h.2.2] at hf
    cases hf
  | succ k ih =>
    intro c lg fin tr h f hf
    by_cases hc : c ≤ e
    · simp only [chunkLoop, if_pos hc] at h
      rcases hw : (withClientsT (fun cl i => env.logsQ c (chunkUpper c e step) cl i)
          env.numClients chunkPolicy).result with msg | part
      · rw [hw] at h; cases h
      · rw [hw] at h
        rcases hrec : chunkLoop env e step k (chunkUpper c e step + 1) with msg | trip
        · rw [hrec] at h; cases h
        · obtain ⟨rest, fin', tr'⟩ := trip
          rw [hrec] at h
          simp only [Except.ok.injEq, Prod.mk.injEq] at h
          rw [← h.2.2] at hf
          rcases List.mem_cons.mp hf with hf | hf
          · subst hf; rfl
          · exact ih _ rest fin' tr' hrec f hf
    · simp only [chunkLoop, if_neg hc, Except.ok.injEq, Prod.mk.injEq] at h
      rw [← h.2.2] at hf
      cases hf

/-- Claim C2, counterexample: a scan of window `[0, 9]` interrupted by the
deadline after one chunk `[0, 4]` queried only 5 blocks, yet the response
reports `scannedBlocks = 10`, the full requested window. -/
theorem scannedBlocks_counterexample :
    getLogsChunked envC2 0 9 5 = .ok ⟨[], some 5, [⟨0, 4, [(0, 1)]⟩]⟩ ∧
    handler pC2 envC2 = .ok [] 10 (some 5) true ∧
    (4 : ℤ) - 0 + 1 = 5 ∧ (10 : ℤ) ≠ 5 := by decide

/-- Claim C2, amended: `scannedBlocks` always equals the size of the full
requested window `toBlock - fromBlock + 1`, even when the deadline
interrupts the chunker before the window is covered. -/
theorem scannedBlocks_full_window (p : Params) (env : ChainEnv) (tb : ℤ)
    (rows : List Row) (sb : ℤ) (nc : Option ℤ) (pf : Bool)
    (hcur : p.cursorTo = some tb)
    (hresp : handler p env = .ok rows sb nc pf) :
    sb = tb - fromBlockOf (numZ p.window 1200) tb + 1 := by
  simp only [handler, hcur] at hresp
  by_cases hn : env.numClients = 0
  · rw [if_pos hn] at hresp; cases hresp
  · rw [if_neg hn] at hresp
    split at hresp
    · cases hresp
    · split at hresp
      · cases hresp; rfl
      · split at hresp
        · cases hresp
        · cases hresp; rfl

theorem scannedBlocks_full_window_witness :
    pC2.cursorTo = some 9 ∧ handler pC2 envC2 = .ok [] 10 (some 5) true ∧
    (10 : ℤ) = 9 - fromBlockOf (numZ pC2.window 1200) 9 + 1 :=
  ⟨rfl, by decide,
    scannedBlocks_full_window pC2 envC2 9 [] 10 (some 5) true rfl (by decide)⟩

/-- Claim C3, counterexample: a scan that completes its whole window `[0, 9]`
with zero log records and no deadline pressure still answers with
`partial = true`: the empty-rows branch hard-codes the flag. -/
theorem empty_scan_partial_counterexample :
    handler pC3 envC3 = .ok [] 10 none true ∧ true ≠ false := by decide

/-- Claim C3, amended: a completed zero-record scan returns `rows = []` and
`nextCursorTo = start - 1` (or null at the origin) but reports
`partial = true` — not `false` as specified — because the empty-rows
branch hard-codes the flag; a completed scan that found records and never
hit the deadline does report `partial = false`. -/
theorem scan_partial_flag (p p2 : Params) (env env2 : ChainEnv) (tb tb2 : ℤ)
    (cr : ChunkResult) (bmap : List (String × ℤ)) :
    (p.cursorTo = some tb → 0 ≤ tb → 0 < env.numClients →
      1 ≤ numZ p.window 1200 → 1 ≤ numZ p.chunk 300 →
      (∀ a b cl i, env.logsQ a b cl i = .ok ([] : List LogRec)) →
      (tb + 1 - fromBlockOf (numZ p.window 1200) tb).toNat ≤ env.chunkBudget →
      handler p env = .ok []
        (tb - fromBlockOf (numZ p.window 1200) tb + 1)
        (if fromBlockOf (numZ p.window 1200) tb > 0
          then some (fromBlockOf (numZ p.window 1200) tb - 1) else none)
        true) ∧
    (p2.cursorTo = some tb2 → 0 < env2.numClients → env2.overAtEnd = false →
      getLogsChunked env2 (fromBlockOf (numZ p2.window 1200) tb2) tb2
        (numZ p2.chunk 300) = .ok cr →
      cr.logs ≠ [] →
      tsLoop env2 (paramsPolicy p2) env2.tsBudget
        (dedupKeepFirst (cr.logs.map (·.blockHash))) = .ok bmap →
      handler p2 env2 = .ok
        (jsSlice (List.insertionSort rowDesc (rowsOf cr.logs bmap env2.nowMs))
          (numZ p2.target 50))
        (tb2 - fromBlockOf (numZ p2.window 1200) tb2 + 1)
        (jsCursor cr.nextFromBlock (fromBlockOf (numZ p2.window 1200) tb2))
        false) := by
  constructor
  · intro hcur htb hn hw hc hlogs hbudget
    have hfb : fromBlockOf (numZ p.window 1200) tb ≤ tb := by
      simp only [fromBlockOf]; split <;> omega
    obtain ⟨tr, hg⟩ := getLogsChunked_empty env
      (fromBlockOf (numZ p.window 1200) tb) tb (numZ p.chunk 300) hfb hc hn
      hlogs hbudget
    simp only [handler, hcur, Nat.pos_iff_ne_zero.mp hn, if_false, hg,
      List.isEmpty_nil, if_true]
    rfl
  · intro hcur hn hover hg hne ht
    have hemp : cr.logs.isEmpty = false := by
      cases hl : cr.logs with
      | nil => exact absurd hl hne
      | cons a l => rfl
    simp only [handler, hcur, Nat.pos_iff_ne_zero.mp hn, if_false, hg, hemp,
      Bool.false_eq_true, if_false, ht, hover]

theorem scan_partial_flag_witness :
    (handler pC3 envC3 = .ok []
      ((9 : ℤ) - fromBlockOf (numZ pC3.window 1200) 9 + 1)
      (if fromBlockOf (numZ pC3.window 1200) 9 > 0
        then some (fromBlockOf (numZ pC3.window 1200) 9 - 1) else none)
      true) ∧
    (handler pL envL = .ok
      (jsSlice (List.insertionSort rowDesc (rowsOf crL.logs bmapL envL.nowMs))
        (numZ pL.target 50))
      ((2 : ℤ) - fromBlockOf (numZ pL.window 1200) 2 + 1)
      (jsCursor crL.nextFromBlock (fromBlockOf (numZ pL.window 1200) 2))
      false) :=
  ⟨(scan_partial_flag pC3 pL envC3 envL 9 2 crL bmapL).1 rfl (by decide)
      (by decide) (by decide) (by decide) (fun _ _ _ _ => rfl) (by decide),
    (scan_partial_flag pC3 pL envC3 envL 9 2 crL bmapL).2 rfl (by decide) rfl
      (by decide) (by decide) (by decide)⟩

/-- Claim C4, counterexample: the deadline-interrupted scan of `[0, 9]` returns
`nextCursorTo = 5`, which is not strictly below the start boundary 0;
re-invoking with `cursorTo = 5` and the same window covers `[0, 5]`, so
block 4 (already queried in chunk `[0, 4]`) is covered twice. -/
theorem next_cursor_counterexample :
    handler pC2 envC2 = .ok [] 10 (some 5) true ∧
    fromBlockOf (numZ pC2.window 1200) 9 = 0 ∧
    ¬ ((5 : ℤ) < 0) ∧
    fromBlockOf (numZ pC2.window 1200) 5 = 0 ∧
    ((0 : ℤ) ≤ 4 ∧ (4 : ℤ) ≤ 5) ∧ ((0 : ℤ) ≤ 4 ∧ (4 : ℤ) ≤ 9) := by decide

/-- Claim C4, amended: when the chunker completes the window, the returned
cursor is `start - 1`, strictly below the start boundary, and a re-scan
from it covers only strictly preceding blocks; but when the deadline
interrupts, the returned `nextCursorTo` is the residual cursor, which lies
inside `[start, end]` (it is `≥ start`, not `< start`).  The response's
`nextCursorTo` is always `jsCursor` of the chunker's residual cursor. -/
theorem next_cursor_progress (p : Params) (env : ChainEnv) (tb fb0 w r : ℤ)
    (cr : ChunkResult) (fbv tbv stv : ℤ) (rows : List Row) (sb : ℤ)
    (nc : Option ℤ) (pf : Bool) :
    (0 < fb0 → jsCursor none fb0 = some (fb0 - 1) ∧ fb0 - 1 < fb0 ∧
      (∀ x, fromBlockOf w (fb0 - 1) ≤ x → x ≤ fb0 - 1 → x < fb0)) ∧
    (1 ≤ stv → fbv ≤ tbv → getLogsChunked env fbv tbv stv = .ok cr →
      cr.nextFromBlock = some r → fbv ≤ r ∧ r ≤ tbv) ∧
    (p.cursorTo = some tb → handler p env = .ok rows sb nc pf →
      ∃ cr2, getLogsChunked env (fromBlockOf (numZ p.window 1200) tb) tb
          (numZ p.chunk 300) = .ok cr2 ∧
        nc = jsCursor cr2.nextFromBlock (fromBlockOf (numZ p.window 1200) tb)) := by
  refine ⟨?_, ?_, ?_⟩
  · intro hpos
    refine ⟨by simp [jsCursor, hpos], by omega, fun x _ hx2 => by omega⟩
  · intro hst hle hok hres
    rw [getLogsChunked, range_normalize_left fbv tbv hle,
      range_normalize_right fbv tbv hle] at hok
    rcases hcl : chunkLoop env tbv stv env.chunkBudget fbv with msg | trip
    · rw [hcl] at hok; cases hok
    · obtain ⟨lg, fin, tr⟩ := trip
      rw [hcl] at hok
      simp only [Except.ok.injEq] at hok
      subst hok
      simp only at hres
      by_cases hfin : fin ≤ tbv
      · rw [if_pos hfin] at hres
        have hr : r = fin := by cases hres; rfl
        subst hr
        have hbr := chunkLoop_run env tbv stv env.chunkBudget fbv lg r tr hcl
        have hge := chunkRun_fin_ge stv hst env.chunkBudget fbv tbv
        rw [← hbr.2] at hge
        exact ⟨hge, hfin⟩
      · rw [if_neg hfin] at hres; cases hres
  · intro hcur hresp
    simp only [handler, hcur] at hresp
    by_cases hn : env.numClients = 0
    · rw [if_pos hn] at hresp; cases hresp
    · rw [if_neg hn] at hresp
      split at hresp
      · cases hresp
      · rename_i cr2 hg2
        split at hresp
        · cases hresp
          exact ⟨cr2, hg2, rfl⟩
        · split at hresp
          · cases hresp
          · cases hresp
            exact ⟨cr2, hg2, rfl⟩

theorem next_cursor_progress_witness :
    (jsCursor none 3 = some (3 - 1) ∧ (3 : ℤ) - 1 < 3 ∧
      (∀ x, fromBlockOf 10 ((3 : ℤ) - 1) ≤ x → x ≤ (3 : ℤ) - 1 → x < 3)) ∧
    ((0 : ℤ) ≤ 5 ∧ (5 : ℤ) ≤ 9) ∧
    (∃ cr2, getLogsChunked envC2 (fromBlockOf (numZ pC2.window 1200) 9) 9
        (numZ pC2.chunk 300) = .ok cr2 ∧
      some 5 = jsCursor cr2.nextFromBlock (fromBlockOf (numZ pC2.window 1200) 9)) :=
  ⟨(next_cursor_progress pC2 envC2 9 3 10 5 ⟨[], some 5, [⟨0, 4, [(0, 1)]⟩]⟩
      0 9 5 [] 10 (some 5) true).1 (by decide),
    (next_cursor_progress pC2 envC2 9 3 10 5 ⟨[], some 5, [⟨0, 4, [(0, 1)]⟩]⟩
      0 9 5 [] 10 (some 5) true).2.1 (by decide) (by decide) (by decide) (by decide),
    (next_cursor_progress pC2 envC2 9 3 10 5 ⟨[], some 5, [⟨0, 4, [(0, 1)]⟩]⟩
      0 9 5 [] 10 (some 5) true).2.2 rfl (by decide)⟩

theorem handler_nonempty_ok (p : Params) (env : ChainEnv) (tb : ℤ)
    (cr : ChunkResult) (bmap : List (String × ℤ)) (hcur : p.cursorTo = some tb)
    (hn : 0 < env.numClients)
    (hg : getLogsChunked env (fromBlockOf (numZ p.window 1200) tb) tb
      (numZ p.chunk 300) = .ok cr)
    (hne : cr.logs ≠ [])
    (ht : tsLoop env (paramsPolicy p) env.tsBudget
      (dedupKeepFirst (cr.logs.map (·.blockHash))) = .ok bmap) :
    handler p env = .ok
      (jsSlice (List.insertionSort rowDesc (rowsOf cr.logs bmap env.nowMs))
        (numZ p.target 50))
      (tb - fromBlockOf (numZ p.window 1200) tb + 1)
      (jsCursor cr.nextFromBlock (fromBlockOf (numZ p.window 1200) tb))
      env.overAtEnd := by
  have hemp : cr.logs.isEmpty = false := by
    cases hl : cr.logs with
    | nil => exact absurd hl hne
    | cons a l => rfl
  simp only [handler, hcur, Nat.pos_iff_ne_zero.mp hn, if_false, hg, hemp,
    Bool.false_eq_true, if_false, ht]

/-- Claim C7, counterexample: a scan call with `target = -1` (accepted by the
numeric parser) returns 1 row out of 2 matching records, because
`Array.prototype.slice(0, -1)` drops one element from the end instead of
truncating to at most `target` rows; `1 ≤ -1` fails, refuting "at most
target rows" as universally stated. -/
theorem rows_truncation_counterexample :
    (match handler pC7 envL with
      | .ok rows _ _ _ => rows.map (fun r => (r.time, r.hash))
      | .err _ _ => []) = [(5000, "t1")] ∧
    numZ pC7.target 50 = -1 ∧ ¬ ((1 : ℤ) ≤ -1) := by decide

/-- Claim C7, amended: the response rows are the sorted-by-timestamp-descending
permutation of all shaped rows, truncated by JS `slice(0, target)` only
after the full sort; for `target ≥ 0` this keeps at most `target` rows and
every retained row's timestamp is at least every dropped row's (the most
recent ones); a negative `target` instead drops `|target|` rows from the
end of the sorted list, so the "at most target" bound fails there. -/
theorem rows_sorted_truncated (p : Params) (env : ChainEnv) (tb : ℤ)
    (cr : ChunkResult) (bmap : List (String × ℤ)) (hcur : p.cursorTo = some tb)
    (hn : 0 < env.numClients)
    (hg : getLogsChunked env (fromBlockOf (numZ p.window 1200) tb) tb
      (numZ p.chunk 300) = .ok cr)
    (hne : cr.logs ≠ [])
    (ht : tsLoop env (paramsPolicy p) env.tsBudget
      (dedupKeepFirst (cr.logs.map (·.blockHash))) = .ok bmap) :
    handler p env = .ok
      (jsSlice (List.insertionSort rowDesc (rowsOf cr.logs bmap env.nowMs))
        (numZ p.target 50))
      (tb - fromBlockOf (numZ p.window 1200) tb + 1)
      (jsCursor cr.nextFromBlock (fromBlockOf (numZ p.window 1200) tb))
      env.overAtEnd ∧
    List.Sorted rowDesc
      (jsSlice (List.insertionSort rowDesc (rowsOf cr.logs bmap env.nowMs))
        (numZ p.target 50)) ∧
    (List.insertionSort rowDesc (rowsOf cr.logs bmap env.nowMs)).Perm
      (rowsOf cr.logs bmap env.nowMs) ∧
    (0 ≤ numZ p.target 50 →
      jsSlice (List.insertionSort rowDesc (rowsOf cr.logs bmap env.nowMs))
          (numZ p.target 50) =
        (List.insertionSort rowDesc (rowsOf cr.logs bmap env.nowMs)).take
          (numZ p.target 50).toNat ∧
      (jsSlice (List.insertionSort rowDesc (rowsOf cr.logs bmap env.nowMs))
          (numZ p.target 50)).length ≤ (numZ p.target 50).toNat ∧
      (∀ x ∈ (List.insertionSort rowDesc (rowsOf cr.logs bmap env.nowMs)).take
          (numZ p.target 50).toNat,
        ∀ y ∈ (List.insertionSort rowDesc (rowsOf cr.logs bmap env.nowMs)).drop
          (numZ p.target 50).toNat, y.time ≤ x.time)) := by
  have hs : List.Sorted rowDesc
      (List.insertionSort rowDesc (rowsOf cr.logs bmap env.nowMs)) :=
    List.sorted_insertionSort rowDesc (rowsOf cr.logs bmap env.nowMs)
  refine ⟨handler_nonempty_ok p env tb cr bmap hcur hn hg hne ht, ?_, ?_, ?_⟩
  · unfold jsSlice
    split <;> exact List.Pairwise.sublist (List.take_sublist _ _) hs
  · exact List.perm_insertionSort rowDesc (rowsOf cr.logs bmap env.nowMs)
  · intro hT
    refine ⟨by unfold jsSlice; rw [if_pos hT], ?_, ?_⟩
    · unfold jsSlice
      rw [if_pos hT]
      exact List.length_take_le _ _
    · intro x hx y hy
      have := (List.pairwise_append.mp (by
        rw [List.take_append_drop]
        exact hs)).2.2 x hx y hy
      exact this

theorem rows_sorted_truncated_witness :
    handler pL envL = .ok
      (jsSlice (List.insertionSort rowDesc (rowsOf crL.logs bmapL envL.nowMs))
        (numZ pL.target 50))
      ((2 : ℤ) - fromBlockOf (numZ pL.window 1200) 2 + 1)
      (jsCursor crL.nextFromBlock (fromBlockOf (numZ pL.window 1200) 2))
      envL.overAtEnd ∧
    List.Sorted rowDesc
      (jsSlice (List.insertionSort rowDesc (rowsOf crL.logs bmapL envL.nowMs))
        (numZ pL.target 50)) ∧
    (List.insertionSort rowDesc (rowsOf crL.logs bmapL envL.nowMs)).Perm
      (rowsOf crL.logs bmapL envL.nowMs) ∧
    (jsSlice (List.insertionSort rowDesc (rowsOf crL.logs bmapL envL.nowMs))
        (numZ pL.target 50) =
      (List.insertionSort rowDesc (rowsOf crL.logs bmapL envL.nowMs)).take
        (numZ pL.target 50).toNat ∧
    (jsSlice (List.insertionSort rowDesc (rowsOf crL.logs bmapL envL.nowMs))
        (numZ pL.target 50)).length ≤ (numZ pL.target 50).toNat ∧
    (∀ x ∈ (List.insertionSort rowDesc (rowsOf crL.logs bmapL envL.nowMs)).take
        (numZ pL.target 50).toNat,
      ∀ y ∈ (List.insertionSort rowDesc (rowsOf crL.logs bmapL envL.nowMs)).drop
        (numZ pL.target 50).toNat, y.time ≤ x.time)) :=
  have happ := rows_sorted_truncated pL envL 2 crL bmapL rfl (by decide)
    (by decide) (by decide) (by decide)
  ⟨happ.1, happ.2.1, happ.2.2.1, happ.2.2.2 (by decide)⟩

/-- Claim C9, counterexample: with `retries = 0` the per-call policy allows one
invocation, yet a chunk `getLogs` query that fails three times still
succeeds on its fourth invocation — the chunker's hard-coded
`{ maxRetries: 3, retryDelayMs: 1200, rateDelayMs: 11000 }` governs it,
not the policy from the query parameters (under which the same attempt
sequence errors after a single call). -/
theorem chunk_retry_policy_counterexample :
    getLogsChunked envC9 0 0 300 = .ok ⟨[], none, [⟨0, 0, [(0, 4)]⟩]⟩ ∧
    numZ pC9.retries 3 + 1 = 1 ∧ ((4 : ℕ) ≠ 1) ∧
    (withRetryT (fun i => envC9.logsQ 0 0 0 i) (paramsPolicy pC9)).result =
      .error "boom" ∧
    handler pC9 envC9 = .ok [] 1 none true := by decide

/-- Claim C9, amended: the policy built from `retries`/`rdelay`/`ratedelay`
governs the tip-height and timestamp lookups, but every per-chunk
`getLogs` query uses the constant `chunkPolicy = ⟨3, 1200, 11000⟩`: the
chunker takes no policy input at all, and a chunk query failing three
times is invoked a fourth time regardless of the per-call parameters. -/
theorem chunk_retry_policy (p : Params) (env : ChainEnv) (fb tb st : ℤ)
    (es3 : ℕ → String) (ls : List LogRec) :
    chunkPolicy = ⟨3, 1200, 11000⟩ ∧
    paramsPolicy p =
      ⟨numZ p.retries 3, numZ p.rdelay 1200, numZ p.ratedelay 11000⟩ ∧
    (env.numClients = 1 →
      (∀ a b i, i < 3 → env.logsQ a b 0 i = .error (es3 i)) →
      (∀ a b, env.logsQ a b 0 3 = .ok ls) →
      ∀ cr, getLogsChunked env fb tb st = .ok cr →
        ∀ f ∈ cr.trace, f.perClient = [(0, 4)]) := by
  refine ⟨rfl, rfl, ?_⟩
  intro hn hfail hok cr hg f hf
  rw [getLogsChunked] at hg
  rcases hcl : chunkLoop env (if tb > fb then tb else fb) st env.chunkBudget
      (if fb < tb then fb else tb) with msg | trip
  · rw [hcl] at hg; cases hg
  · obtain ⟨lg, fin, tr⟩ := trip
    rw [hcl] at hg
    simp only [Except.ok.injEq] at hg
    subst hg
    have hper := chunkLoop_trace_perClient env (if tb > fb then tb else fb) st
      env.chunkBudget (if fb < tb then fb else tb) lg fin tr hcl f hf
    have hret : withRetryT
        (fun i => env.logsQ f.chunkFrom f.chunkTo 0 i) chunkPolicy =
        ⟨.ok ls, 3 + 1, (List.range 3).map
          (fun t => retryDelay ⟨((3 : ℕ) : ℤ), 1200, 11000⟩ (es3 t))⟩ := by
      have := withRetryT_success (List LogRec)
        (fun i => env.logsQ f.chunkFrom f.chunkTo 0 i) 3 1200 11000 es3 ls 3
        (Nat.le_refl 3) (fun t ht => hfail f.chunkFrom f.chunkTo t ht)
        (hok f.chunkFrom f.chunkTo)
      exact this
    rw [hper, hn]
    show (withClientsGo (fun cl i => env.logsQ f.chunkFrom f.chunkTo cl i)
      chunkPolicy (List.range 1)).perClient = [(0, 4)]
    have hr1 : List.range 1 = [0] := rfl
    rw [hr1]
    simp only [withClientsGo, hret]

theorem chunk_retry_policy_witness :
    chunkPolicy = ⟨3, 1200, 11000⟩ ∧
    paramsPolicy pC9 =
      ⟨numZ pC9.retries 3, numZ pC9.rdelay 1200, numZ pC9.ratedelay 11000⟩ ∧
    (∀ f ∈ (⟨[], none, [⟨0, 0, [(0, 4)]⟩]⟩ : ChunkResult).trace,
      f.perClient = [(0, 4)]) :=
  have happ := chunk_retry_policy pC9 envC9 0 0 300 (fun _ => "boom") []
  ⟨happ.1, happ.2.1,
    happ.2.2 rfl
      (fun a b i hi => by
        show (if i < 3 then Except.error "boom" else Except.ok []) =
          Except.error "boom"
        rw [if_pos hi])
      (fun a b => rfl) ⟨[], none, [⟨0, 0, [(0, 4)]⟩]⟩ (by decide)⟩
